/-
Verification of the `bit-array-rs` crate (`src/lib.rs`): a fixed-capacity
bit set backed by a vector of 32-bit words ("atoms"), with an incrementally
maintained count of set bits.

Shallow embedding conventions:
* `u32` atoms are `Nat`s kept below `2 ^ 32` (an invariant of reachable
  states); bitwise operators `&&&`, `|||`, `^^^`, `<<<`, `>>>` mirror the
  Rust operators, and Rust's `!mask` complement on `u32` is
  `U32_MAX ^^^ mask`.
* A Rust `panic!`/`assert!` failure is modelled by returning `none`; a
  mutating method `fn f(&mut self, ..)` becomes `BitArray → .. → Option
  BitArray`.  The source asserts before mutating, so the panicking branch
  carries no modified state.
* `Vec` indexing `self.array[i]` is modelled with `List.getD _ i 0`; for
  every reachable state the index is in bounds (proved below as part of
  the reachability invariant), so the default is never consulted.
* The `Display`/`Debug` formatters write characters left to right into a
  formatter; they are modelled as the list of characters written.
-/
import Mathlib

set_option maxRecDepth 4000

/-- Rust: `const BIT_ARRAY_BITS_IN_ATOM: usize = 32;` -/
def BIT_ARRAY_BITS_IN_ATOM : Nat := 32

/-- Rust `u32::MAX`. -/
def U32_MAX : Nat := 2 ^ 32 - 1

/-- Rust: `pub struct BitArray { array: Vec<BitArrayAtom>, bit_count: usize,
number_of_bits_set: usize }`. -/
structure BitArray where
  array : List Nat
  bit_count : Nat
  number_of_bits_set : Nat
  deriving DecidableEq, Repr

namespace BitArray

/-- The raw bit read of `BitArray::get` (after its bounds assert), on the
backing list: `(array[index / 32] >> (index % 32)) & 0x1 != 0`. -/
def getBitL (atoms : List Nat) (index : Nat) : Bool :=
  ((atoms.getD (index / BIT_ARRAY_BITS_IN_ATOM) 0) >>>
    (index % BIT_ARRAY_BITS_IN_ATOM)) &&& 1 != 0

/-- The raw bit read of `BitArray::get` (after its bounds assert). -/
def getBit (b : BitArray) (index : Nat) : Bool :=
  getBitL b.array index

/-- Rust `BitArray::get`: asserts `index < self.bit_count` (modelled as
`none`), then reads the bit. -/
def get (b : BitArray) (index : Nat) : Option Bool :=
  if index < b.bit_count then some (b.getBit index) else none

/-- Rust `BitArray::new`: asserts `bit_count != 0`, allocates
`bit_count.div_ceil(32)` zeroed atoms. -/
def new (bit_count : Nat) : Option BitArray :=
  if bit_count = 0 then none
  else some
    { array := List.replicate
        ((bit_count + BIT_ARRAY_BITS_IN_ATOM - 1) / BIT_ARRAY_BITS_IN_ATOM) 0
      bit_count := bit_count
      number_of_bits_set := 0 }

/-- Rust `BitArray::reset`: `self.array.fill(0); self.number_of_bits_set = 0;`. -/
def reset (b : BitArray) : BitArray :=
  { b with array := List.replicate b.array.length 0, number_of_bits_set := 0 }

/-- Rust `BitArray::all_set`: `self.bit_count == self.number_of_bits_set`. -/
def all_set (b : BitArray) : Bool :=
  b.bit_count == b.number_of_bits_set

/-- Rust `BitArray::count_set_bits`: returns `self.number_of_bits_set`. -/
def count_set_bits (b : BitArray) : Nat :=
  b.number_of_bits_set

/-- Rust `BitArray::set`: asserts the bound, increments the counter when the
bit was 0, then ors the mask into the atom. -/
def set (b : BitArray) (index : Nat) : Option BitArray :=
  if index < b.bit_count then
    let array_index := index / BIT_ARRAY_BITS_IN_ATOM
    let bit_index := index % BIT_ARRAY_BITS_IN_ATOM
    let mask := 1 <<< bit_index
    let atom := b.array.getD array_index 0
    let n := if atom &&& mask = 0 then b.number_of_bits_set + 1
             else b.number_of_bits_set
    some { b with array := b.array.set array_index (atom ||| mask),
                  number_of_bits_set := n }
  else none

/-- Rust `BitArray::unset`: asserts the bound, decrements the counter when
the bit was 1, then ands the complemented mask into the atom. -/
def unset (b : BitArray) (index : Nat) : Option BitArray :=
  if index < b.bit_count then
    let array_index := index / BIT_ARRAY_BITS_IN_ATOM
    let bit_index := index % BIT_ARRAY_BITS_IN_ATOM
    let mask := 1 <<< bit_index
    let atom := b.array.getD array_index 0
    let n := if atom &&& mask ≠ 0 then b.number_of_bits_set - 1
             else b.number_of_bits_set
    some { b with array := b.array.set array_index (atom &&& (U32_MAX ^^^ mask)),
                  number_of_bits_set := n }
  else none

/-- Rust `BitArray::set_bit`: asserts the bound then branches on `set`,
duplicating the bodies of `set`/`unset` as the source does. -/
def set_bit (b : BitArray) (index : Nat) (set : Bool) : Option BitArray :=
  if index < b.bit_count then
    let array_index := index / BIT_ARRAY_BITS_IN_ATOM
    let bit_index := index % BIT_ARRAY_BITS_IN_ATOM
    let mask := 1 <<< bit_index
    let atom := b.array.getD array_index 0
    if set then
      let n := if atom &&& mask = 0 then b.number_of_bits_set + 1
               else b.number_of_bits_set
      some { b with array := b.array.set array_index (atom ||| mask),
                    number_of_bits_set := n }
    else
      let n := if atom &&& mask ≠ 0 then b.number_of_bits_set - 1
               else b.number_of_bits_set
      some { b with array := b.array.set array_index (atom &&& (U32_MAX ^^^ mask)),
                    number_of_bits_set := n }
  else none

/-- The loop of `BitArray::first_unset_bit`: `self.array.iter().enumerate()`,
returning from the first atom `!= u32::MAX` the first zero bit (LSB first). -/
def firstUnsetAux : List Nat → Nat → Option Nat
  | [], _ => none
  | atom :: rest, i =>
    if atom ≠ U32_MAX then
      (List.range BIT_ARRAY_BITS_IN_ATOM).findSome? (fun bit =>
        if atom &&& (1 <<< bit) = 0 then some (i * BIT_ARRAY_BITS_IN_ATOM + bit)
        else none)
    else firstUnsetAux rest (i + 1)

/-- Rust `BitArray::first_unset_bit`. -/
def first_unset_bit (b : BitArray) : Option Nat :=
  firstUnsetAux b.array 0

/-- The loop of `BitArray::first_set_bit`: from the first atom `!= 0`,
the first set bit (LSB first). -/
def firstSetAux : List Nat → Nat → Option Nat
  | [], _ => none
  | atom :: rest, i =>
    if atom ≠ 0 then
      (List.range BIT_ARRAY_BITS_IN_ATOM).findSome? (fun bit =>
        if atom &&& (1 <<< bit) ≠ 0 then some (i * BIT_ARRAY_BITS_IN_ATOM + bit)
        else none)
    else firstSetAux rest (i + 1)

/-- Rust `BitArray::first_set_bit`. -/
def first_set_bit (b : BitArray) : Option Nat :=
  firstSetAux b.array 0

/-- Rust `BitArray::atom_from_index`: 32 iterations, each shifting the
accumulator left and or-ing in the bit at `from_index + 31 - i` when that
position is below `bit_count` (the guard makes the inner `self.get` call
in-bounds, so it is the raw read `getBit`). -/
def atom_from_index (b : BitArray) (from_index : Nat) : Nat :=
  (List.range BIT_ARRAY_BITS_IN_ATOM).foldl (fun result i =>
    let index := from_index + (BIT_ARRAY_BITS_IN_ATOM - 1) - i
    let result := result <<< 1
    if index < b.bit_count then result ||| (if b.getBit index then 1 else 0)
    else result) 0

/-- The characters written by the `Display` impl: `"{}"` of
`u8::from(self.get(i))` for `i in 0..bit_count`. -/
def displayChars (b : BitArray) : List Char :=
  (List.range b.bit_count).foldl (fun acc i =>
    acc ++ [if b.getBit i then '1' else '0']) []

/-- The characters written by the `Debug` impl: same loop, with `" "`
written first whenever `i > 0 && i % 8 == 0`. -/
def debugChars (b : BitArray) : List Char :=
  (List.range b.bit_count).foldl (fun acc i =>
    (if 0 < i ∧ i % 8 = 0 then acc ++ [' '] else acc) ++
      [if b.getBit i then '1' else '0']) []

/-- States reachable through the public constructors and mutators. -/
inductive Reachable : BitArray → Prop where
  | of_new : ∀ n b, new n = some b → Reachable b
  | of_set : ∀ b index b', Reachable b → set b index = some b' → Reachable b'
  | of_unset : ∀ b index b', Reachable b → unset b index = some b' → Reachable b'
  | of_set_bit : ∀ b index v b', Reachable b → set_bit b index v = some b' →
      Reachable b'
  | of_reset : ∀ b, Reachable b → Reachable (reset b)

/-- The representation invariant of reachable states: positive capacity, the
backing list has exactly `ceil(bit_count / 32)` atoms, atoms are `u32`
values, padding bits at logical positions `≥ bit_count` are zero, and the
cached counter equals the number of set in-range bits. -/
def Inv (b : BitArray) : Prop :=
  0 < b.bit_count ∧
  b.array.length =
    (b.bit_count + BIT_ARRAY_BITS_IN_ATOM - 1) / BIT_ARRAY_BITS_IN_ATOM ∧
  (∀ a ∈ b.array, a < 2 ^ 32) ∧
  (∀ j, b.bit_count ≤ j → b.getBit j = false) ∧
  b.number_of_bits_set = (List.range b.bit_count).countP (fun i => b.getBit i)

end BitArray

/-! ### Basic bridges between the Rust-style bit expressions and `Nat.testBit` -/

namespace BitArray

theorem getBitL_eq_testBit (atoms : List Nat) (j : Nat) :
    getBitL atoms j = (atoms.getD (j / 32) 0).testBit (j % 32) := by
  simp only [getBitL, BIT_ARRAY_BITS_IN_ATOM, Nat.testBit]
  rw [Nat.and_comm]

theorem getBit_eq_testBit (b : BitArray) (j : Nat) :
    b.getBit j = (b.array.getD (j / 32) 0).testBit (j % 32) :=
  getBitL_eq_testBit b.array j

theorem and_mask_eq_zero (atom bit : Nat) :
    atom &&& (1 <<< bit) = 0 ↔ atom.testBit bit = false := by
  rw [Nat.one_shiftLeft]
  constructor
  · intro h
    have := congrArg (fun x => x.testBit bit) h
    simpa [Nat.testBit_and, Nat.testBit_two_pow_self] using this
  · intro h
    apply Nat.eq_of_testBit_eq
    intro k
    by_cases hk : bit = k
    · subst hk; simp [Nat.testBit_and, h]
    · simp [Nat.testBit_and, Nat.testBit_two_pow_of_ne hk]

theorem testBit_ge_32 {a j : Nat} (ha : a < 2 ^ 32) (hj : 32 ≤ j) :
    a.testBit j = false :=
  Nat.testBit_lt_two_pow
    (Nat.lt_of_lt_of_le ha (Nat.pow_le_pow_right (by norm_num) hj))

theorem eq_zero_of_all_testBit {a : Nat} (h : ∀ i, a.testBit i = false) :
    a = 0 :=
  Nat.eq_of_testBit_eq (fun i => by simp [h i])

theorem getBitL_nil (j : Nat) : getBitL [] j = false := by
  simp [getBitL]

theorem getBitL_cons (atom : Nat) (rest : List Nat) (j : Nat) :
    getBitL (atom :: rest) j =
      if j < 32 then atom.testBit j else getBitL rest (j - 32) := by
  by_cases h : j < 32
  · rw [if_pos h, getBitL_eq_testBit, Nat.div_eq_of_lt h, Nat.mod_eq_of_lt h]
    simp
  · have hd : j / 32 = (j - 32) / 32 + 1 := by omega
    have hm : j % 32 = (j - 32) % 32 := by omega
    rw [if_neg h, getBitL_eq_testBit, getBitL_eq_testBit, hd, hm]
    simp

theorem getBitL_zero_list {l : List Nat} (hl : ∀ a ∈ l, a = 0) (j : Nat) :
    getBitL l j = false := by
  rw [getBitL_eq_testBit]
  rcases Nat.lt_or_ge (j / 32) l.length with h | h
  · have : l.getD (j / 32) 0 = l[j / 32] := by simp [List.getElem?_eq_getElem h]
    rw [this, hl _ (List.mem_iff_getElem.mpr ⟨j / 32, h, rfl⟩)]
    simp
  · have : l.getD (j / 32) 0 = 0 := by
      simp [List.getElem?_eq_none (by simpa using h)]
    rw [this]; simp

/-! ### `List.findSome?` over `List.range`, with an `if`-guarded body -/

theorem findSome?_range_none {n : Nat} {P : Nat → Prop} [DecidablePred P]
    {f : Nat → Nat} :
    ((List.range n).findSome? fun k => if P k then some (f k) else none)
        = none ↔ ∀ k, k < n → ¬ P k := by
  rw [List.findSome?_eq_none_iff]
  constructor
  · intro h k hk hP
    have := h k (List.mem_range.mpr hk)
    simp [hP] at this
  · intro h k hk
    simp [h k (List.mem_range.mp hk)]

theorem findSome?_range_some {n : Nat} {P : Nat → Prop} [DecidablePred P]
    {f : Nat → Nat} {r : Nat} :
    ((List.range n).findSome? fun k => if P k then some (f k) else none)
        = some r ↔
      ∃ k, k < n ∧ P k ∧ (∀ j, j < k → ¬ P j) ∧ r = f k := by
  induction n with
  | zero => simp
  | succ m ih =>
      rw [List.range_succ, List.findSome?_append, Option.or_eq_some]
      constructor
      · rintro (h | ⟨hnone, h⟩)
        · obtain ⟨k, hk, hP, hmin, hr⟩ := ih.mp h
          exact ⟨k, Nat.lt_succ_of_lt hk, hP, hmin, hr⟩
        · have hall := findSome?_range_none.mp hnone
          simp only [List.findSome?_cons, List.findSome?_nil] at h
          by_cases hPm : P m
          · refine ⟨m, Nat.lt_succ_self m, hPm, hall, ?_⟩
            simp [hPm] at h
            omega
          · simp [hPm] at h
      · rintro ⟨k, hk, hP, hmin, hr⟩
        by_cases hkm : k < m
        · exact Or.inl (ih.mpr ⟨k, hkm, hP, hmin, hr⟩)
        · have hkeq : k = m := by omega
          subst hkeq
          refine Or.inr ⟨findSome?_range_none.mpr hmin, ?_⟩
          simp [hP, hr]

end BitArray

/-! ### Unfoldings and pointwise effect of the mutators -/

namespace BitArray

theorem set_eq_some {b : BitArray} {i : Nat} (hi : i < b.bit_count) :
    b.set i = some
      { b with
        array := b.array.set (i / 32)
          ((b.array.getD (i / 32) 0) ||| (1 <<< (i % 32)))
        number_of_bits_set :=
          if (b.array.getD (i / 32) 0) &&& (1 <<< (i % 32)) = 0 then
            b.number_of_bits_set + 1
          else b.number_of_bits_set } := by
  simp [set, hi, BIT_ARRAY_BITS_IN_ATOM]

theorem unset_eq_some {b : BitArray} {i : Nat} (hi : i < b.bit_count) :
    b.unset i = some
      { b with
        array := b.array.set (i / 32)
          ((b.array.getD (i / 32) 0) &&& (U32_MAX ^^^ (1 <<< (i % 32))))
        number_of_bits_set :=
          if (b.array.getD (i / 32) 0) &&& (1 <<< (i % 32)) ≠ 0 then
            b.number_of_bits_set - 1
          else b.number_of_bits_set } := by
  simp [unset, hi, BIT_ARRAY_BITS_IN_ATOM]

theorem set_bit_eq (b : BitArray) (i : Nat) (v : Bool) :
    b.set_bit i v = if v then b.set i else b.unset i := by
  cases v <;> by_cases hi : i < b.bit_count <;>
    simp [set_bit, set, unset, hi]

theorem set_bound {b b' : BitArray} {i : Nat} (h : b.set i = some b') :
    i < b.bit_count := by
  by_contra hi
  simp [set, hi] at h

theorem unset_bound {b b' : BitArray} {i : Nat} (h : b.unset i = some b') :
    i < b.bit_count := by
  by_contra hi
  simp [unset, hi] at h

theorem set_bit_count {b b' : BitArray} {i : Nat} (h : b.set i = some b') :
    b'.bit_count = b.bit_count := by
  rw [set_eq_some (set_bound h)] at h
  cases h
  rfl

theorem unset_bit_count {b b' : BitArray} {i : Nat} (h : b.unset i = some b') :
    b'.bit_count = b.bit_count := by
  rw [unset_eq_some (unset_bound h)] at h
  cases h
  rfl

theorem getBit_set_some {b b' : BitArray} {i : Nat}
    (hlen : i / 32 < b.array.length) (h : b.set i = some b') (j : Nat) :
    b'.getBit j = (b.getBit j || decide (j = i)) := by
  have hi : i < b.bit_count := set_bound h
  rw [set_eq_some hi] at h
  cases h
  rw [getBit_eq_testBit, getBit_eq_testBit]
  show ((b.array.set (i / 32) _).getD (j / 32) 0).testBit (j % 32) = _
  by_cases hj : j / 32 = i / 32
  · have hget : (b.array.set (i / 32)
        ((b.array.getD (i / 32) 0) ||| (1 <<< (i % 32)))).getD (j / 32) 0
        = (b.array.getD (i / 32) 0) ||| (1 <<< (i % 32)) := by
      rw [hj]
      simp [List.getElem?_set_self hlen]
    rw [hget, Nat.one_shiftLeft, Nat.testBit_or, Nat.testBit_two_pow, hj]
    congr 1
    rw [decide_eq_decide]
    omega
  · have hget : (b.array.set (i / 32)
        ((b.array.getD (i / 32) 0) ||| (1 <<< (i % 32)))).getD (j / 32) 0
        = b.array.getD (j / 32) 0 := by
      simp [List.getElem?_set_ne (fun e => hj e.symm)]
    have hne : j ≠ i := fun e => hj (by rw [e])
    rw [hget]
    simp [hne]

theorem getBit_unset_some {b b' : BitArray} {i : Nat}
    (hlen : i / 32 < b.array.length) (h : b.unset i = some b') (j : Nat) :
    b'.getBit j = (b.getBit j && !decide (j = i)) := by
  have hi : i < b.bit_count := unset_bound h
  rw [unset_eq_some hi] at h
  cases h
  rw [getBit_eq_testBit, getBit_eq_testBit]
  show ((b.array.set (i / 32) _).getD (j / 32) 0).testBit (j % 32) = _
  by_cases hj : j / 32 = i / 32
  · have hget : (b.array.set (i / 32)
        ((b.array.getD (i / 32) 0) &&& (U32_MAX ^^^ (1 <<< (i % 32))))).getD
          (j / 32) 0
        = (b.array.getD (i / 32) 0) &&& (U32_MAX ^^^ (1 <<< (i % 32))) := by
      rw [hj]
      simp [List.getElem?_set_self hlen]
    have hj32 : j % 32 < 32 := Nat.mod_lt _ (by norm_num)
    rw [hget, Nat.one_shiftLeft, Nat.testBit_and, Nat.testBit_xor, U32_MAX,
      Nat.testBit_two_pow_sub_one, Nat.testBit_two_pow, hj]
    rw [decide_eq_true hj32, Bool.true_xor]
    congr 2
    rw [decide_eq_decide]
    omega
  · have hget : (b.array.set (i / 32)
        ((b.array.getD (i / 32) 0) &&& (U32_MAX ^^^ (1 <<< (i % 32))))).getD
          (j / 32) 0
        = b.array.getD (j / 32) 0 := by
      simp [List.getElem?_set_ne (fun e => hj e.symm)]
    have hne : j ≠ i := fun e => hj (by rw [e])
    rw [hget]
    simp [hne]

end BitArray

/-! ### Counting a single-point predicate change -/

namespace BitArray

theorem countP_or_single {l : List Nat} {p : Nat → Bool} {i : Nat}
    (hn : l.Nodup) (hm : i ∈ l) :
    l.countP (fun j => p j || decide (j = i)) =
      l.countP p + (if p i then 0 else 1) := by
  induction l with
  | nil => cases hm
  | cons a t ih =>
      rw [List.countP_cons, List.countP_cons]
      rcases List.mem_cons.mp hm with rfl | hmt
      · have hit : i ∉ t := (List.nodup_cons.mp hn).1
        have ht : t.countP (fun j => p j || decide (j = i)) = t.countP p := by
          apply List.countP_congr
          intro x hx
          have hxa : x ≠ i := fun e => hit (e ▸ hx)
          simp [hxa]
        rw [ht]
        cases hp : p i <;> simp [hp]
      · have hai : a ≠ i := by
          rintro rfl
          exact (List.nodup_cons.mp hn).1 hmt
        have ha : (p a || decide (a = i)) = p a := by simp [hai]
        rw [ha, ih (List.nodup_cons.mp hn).2 hmt]
        generalize (if p i = true then 0 else 1) = x
        generalize (if p a = true then 1 else 0) = y
        omega

theorem countP_and_single {l : List Nat} {p : Nat → Bool} {i : Nat}
    (hn : l.Nodup) (hm : i ∈ l) :
    l.countP (fun j => p j && !decide (j = i)) =
      l.countP p - (if p i then 1 else 0) := by
  induction l with
  | nil => cases hm
  | cons a t ih =>
      rw [List.countP_cons, List.countP_cons]
      rcases List.mem_cons.mp hm with rfl | hmt
      · have hit : i ∉ t := (List.nodup_cons.mp hn).1
        have ht : t.countP (fun j => p j && !decide (j = i)) = t.countP p := by
          apply List.countP_congr
          intro x hx
          have hxa : x ≠ i := fun e => hit (e ▸ hx)
          simp [hxa]
        rw [ht]
        cases hp : p i <;> simp [hp]
      · have hai : a ≠ i := by
          rintro rfl
          exact (List.nodup_cons.mp hn).1 hmt
        have ha : (p a && !decide (a = i)) = p a := by simp [hai]
        have hge : (if p i then 1 else 0) ≤ t.countP p := by
          cases hp : p i
          · simp
          · simpa using List.countP_pos_iff.mpr ⟨i, hmt, hp⟩
        rw [ha, ih (List.nodup_cons.mp hn).2 hmt]
        generalize hx : (if p i = true then 1 else 0) = x at hge ⊢
        generalize (if p a = true then 1 else 0) = y
        omega

/-! ### The invariant holds for every reachable state -/

theorem inv_length_div32 {b : BitArray} (h : Inv b) {i : Nat}
    (hi : i < b.bit_count) : i / 32 < b.array.length := by
  obtain ⟨-, hlen, -, -, -⟩ := h
  have : b.array.length = (b.bit_count + 31) / 32 := by
    rw [hlen]; rfl
  omega

theorem getD_mem {l : List Nat} {k : Nat} (hk : k < l.length) :
    l.getD k 0 ∈ l := by
  have : l.getD k 0 = l[k] := by simp [List.getElem?_eq_getElem hk]
  rw [this]
  exact List.mem_iff_getElem.mpr ⟨k, hk, rfl⟩

theorem inv_new {n : Nat} {b : BitArray} (h : new n = some b) : Inv b := by
  rw [new] at h
  split at h
  · cases h
  · rename_i hn
    cases h
    have hz : ∀ j, getBitL (List.replicate
        ((n + BIT_ARRAY_BITS_IN_ATOM - 1) / BIT_ARRAY_BITS_IN_ATOM) 0) j
          = false :=
      getBitL_zero_list (fun x hx => List.eq_of_mem_replicate hx)
    refine ⟨Nat.pos_of_ne_zero hn, by simp, ?_, ?_, ?_⟩
    · intro a ha
      rw [List.eq_of_mem_replicate ha]
      norm_num
    · intro j hj
      exact hz j
    · exact (List.countP_eq_zero.mpr (fun a ha => by
        simp [getBit, hz a])).symm

theorem inv_reset {b : BitArray} (h : Inv b) : Inv (reset b) := by
  obtain ⟨hpos, hlen, -, -, -⟩ := h
  have hz : ∀ j, getBitL (List.replicate b.array.length 0) j = false :=
    getBitL_zero_list (fun x hx => List.eq_of_mem_replicate hx)
  refine ⟨hpos, by simp [reset, hlen], ?_, ?_, ?_⟩
  · intro a ha
    rw [List.eq_of_mem_replicate ha]
    norm_num
  · intro j hj
    exact hz j
  · exact (List.countP_eq_zero.mpr (fun a ha => by
      simp [getBit, reset, hz a])).symm

theorem inv_set {b b' : BitArray} {i : Nat} (hInv : Inv b)
    (h : b.set i = some b') : Inv b' := by
  have hi : i < b.bit_count := set_bound h
  have hlen : i / 32 < b.array.length := inv_length_div32 hInv hi
  have hpt : ∀ j, b'.getBit j = (b.getBit j || decide (j = i)) :=
    getBit_set_some hlen h
  have hbc : b'.bit_count = b.bit_count := set_bit_count h
  have hmask : ((b.array.getD (i / 32) 0) &&& (1 <<< (i % 32)) = 0)
      ↔ b.getBit i = false := by
    rw [and_mask_eq_zero, getBit_eq_testBit]
  have harr : b'.array = b.array.set (i / 32)
      ((b.array.getD (i / 32) 0) ||| (1 <<< (i % 32))) := by
    rw [set_eq_some hi] at h
    cases h
    rfl
  have hnum : b'.number_of_bits_set =
      (if (b.array.getD (i / 32) 0) &&& (1 <<< (i % 32)) = 0 then
        b.number_of_bits_set + 1
      else b.number_of_bits_set) := by
    rw [set_eq_some hi] at h
    cases h
    rfl
  obtain ⟨hpos, hlength, hatoms, hpad, hcount⟩ := hInv
  refine ⟨by rw [hbc]; exact hpos, ?_, ?_, ?_, ?_⟩
  · rw [harr, List.length_set, hbc, hlength]
  · intro a ha
    rw [harr] at ha
    rcases List.mem_or_eq_of_mem_set ha with hmem | rfl
    · exact hatoms a hmem
    · rw [Nat.one_shiftLeft]
      exact Nat.or_lt_two_pow (hatoms _ (getD_mem hlen))
        (Nat.pow_lt_pow_right (by norm_num) (Nat.mod_lt _ (by norm_num)))
  · intro j hj
    rw [hbc] at hj
    rw [hpt j]
    have hji : j ≠ i := by omega
    simp [hji, hpad j hj]
  · rw [hnum, hbc]
    have hrange : (List.range b.bit_count).countP (fun j => b'.getBit j)
        = (List.range b.bit_count).countP
            (fun j => b.getBit j || decide (j = i)) :=
      List.countP_congr (fun x _ => by rw [hpt x])
    rw [hrange, countP_or_single (List.nodup_range _)
      (List.mem_range.mpr hi), ← hcount]
    by_cases hb : b.getBit i = false
    · rw [if_pos (hmask.mpr hb), hb]
      simp
    · have hb' : b.getBit i = true := by
        cases hq : b.getBit i
        · exact absurd hq hb
        · rfl
      rw [if_neg (fun e => hb (hmask.mp e)), hb']
      simp

theorem inv_unset {b b' : BitArray} {i : Nat} (hInv : Inv b)
    (h : b.unset i = some b') : Inv b' := by
  have hi : i < b.bit_count := unset_bound h
  have hlen : i / 32 < b.array.length := inv_length_div32 hInv hi
  have hpt : ∀ j, b'.getBit j = (b.getBit j && !decide (j = i)) :=
    getBit_unset_some hlen h
  have hbc : b'.bit_count = b.bit_count := unset_bit_count h
  have hmask : ((b.array.getD (i / 32) 0) &&& (1 <<< (i % 32)) = 0)
      ↔ b.getBit i = false := by
    rw [and_mask_eq_zero, getBit_eq_testBit]
  have harr : b'.array = b.array.set (i / 32)
      ((b.array.getD (i / 32) 0) &&& (U32_MAX ^^^ (1 <<< (i % 32)))) := by
    rw [unset_eq_some hi] at h
    cases h
    rfl
  have hnum : b'.number_of_bits_set =
      (if (b.array.getD (i / 32) 0) &&& (1 <<< (i % 32)) ≠ 0 then
        b.number_of_bits_set - 1
      else b.number_of_bits_set) := by
    rw [unset_eq_some hi] at h
    cases h
    rfl
  obtain ⟨hpos, hlength, hatoms, hpad, hcount⟩ := hInv
  refine ⟨by rw [hbc]; exact hpos, ?_, ?_, ?_, ?_⟩
  · rw [harr, List.length_set, hbc, hlength]
  · intro a ha
    rw [harr] at ha
    rcases List.mem_or_eq_of_mem_set ha with hmem | rfl
    · exact hatoms a hmem
    · exact Nat.lt_of_le_of_lt Nat.and_le_left (hatoms _ (getD_mem hlen))
  · intro j hj
    rw [hbc] at hj
    rw [hpt j]
    simp [hpad j hj]
  · rw [hnum, hbc]
    have hrange : (List.range b.bit_count).countP (fun j => b'.getBit j)
        = (List.range b.bit_count).countP
            (fun j => b.getBit j && !decide (j = i)) :=
      List.countP_congr (fun x _ => by rw [hpt x])
    rw [hrange, countP_and_single (List.nodup_range _)
      (List.mem_range.mpr hi), ← hcount]
    by_cases hb : b.getBit i = false
    · rw [if_neg (fun hne => hne (hmask.mpr hb)), hb]
      simp
    · have hb' : b.getBit i = true := by
        cases hq : b.getBit i
        · exact absurd hq hb
        · rfl
      rw [if_pos (fun e => hb (hmask.mp e)), hb']
      simp

theorem inv_preserved {b : BitArray} (h : Reachable b) : Inv b := by
  induction h with
  | of_new n b hb => exact inv_new hb
  | of_set b i b' hr hs ih => exact inv_set ih hs
  | of_unset b i b' hr hs ih => exact inv_unset ih hs
  | of_set_bit b i v b' hr hs ih =>
      rw [set_bit_eq] at hs
      cases v
      · exact inv_unset ih hs
      · exact inv_set ih hs
  | of_reset b hr ih => exact inv_reset ih

end BitArray

/-! ### Correctness of the `first_set_bit` scan -/

namespace BitArray

theorem firstSetAux_eq_none {l : List Nat} {off : Nat}
    (hl : ∀ a ∈ l, a < 2 ^ 32) :
    firstSetAux l off = none ↔ ∀ a ∈ l, a = 0 := by
  induction l generalizing off with
  | nil => simp [firstSetAux]
  | cons atom rest ih =>
      by_cases ha : atom = 0
      · rw [firstSetAux, if_neg (not_not_intro ha),
          ih (fun a hm => hl a (List.mem_cons_of_mem _ hm))]
        constructor
        · intro h a hm
          rcases List.mem_cons.mp hm with rfl | hm'
          · exact ha
          · exact h a hm'
        · intro h a hm
          exact h a (List.mem_cons_of_mem _ hm)
      · rw [firstSetAux, if_pos ha]
        constructor
        · intro h
          exfalso
          have hall := findSome?_range_none.mp h
          apply ha
          apply eq_zero_of_all_testBit
          intro k
          by_cases hk : k < BIT_ARRAY_BITS_IN_ATOM
          · have := hall k hk
            rw [not_not, and_mask_eq_zero] at this
            exact this
          · exact testBit_ge_32 (hl atom (List.mem_cons_self _ _)) (by
              simpa [BIT_ARRAY_BITS_IN_ATOM] using hk)
        · intro h
          exact absurd (h atom (List.mem_cons_self _ _)) ha

theorem firstSetAux_eq_some {l : List Nat} {off r : Nat}
    (hl : ∀ a ∈ l, a < 2 ^ 32) (h : firstSetAux l off = some r) :
    ∃ j, r = off * 32 + j ∧ getBitL l j = true ∧
      ∀ k, k < j → getBitL l k = false := by
  induction l generalizing off with
  | nil => simp [firstSetAux] at h
  | cons atom rest ih =>
      by_cases ha : atom = 0
      · rw [firstSetAux, if_neg (not_not_intro ha)] at h
        obtain ⟨j, hrj, hbit, hmin⟩ :=
          ih (fun a hm => hl a (List.mem_cons_of_mem _ hm)) h
        refine ⟨32 + j, by omega, ?_, ?_⟩
        · rw [getBitL_cons, if_neg (by omega)]
          simpa using hbit
        · intro k hk
          rw [getBitL_cons]
          by_cases hk32 : k < 32
          · subst ha
            simp [hk32]
          · rw [if_neg hk32]
            exact hmin (k - 32) (by omega)
      · rw [firstSetAux, if_pos ha] at h
        obtain ⟨bit, hbit32, hP, hmin, hr⟩ := findSome?_range_some.mp h
        have hbit32' : bit < 32 := by
          simpa [BIT_ARRAY_BITS_IN_ATOM] using hbit32
        refine ⟨bit, by
          rw [hr]; simp [BIT_ARRAY_BITS_IN_ATOM], ?_, ?_⟩
        · rw [getBitL_cons, if_pos hbit32']
          cases hq : atom.testBit bit
          · exact absurd ((and_mask_eq_zero atom bit).mpr hq) hP
          · rfl
        · intro k hk
          rw [getBitL_cons, if_pos (by omega)]
          have := hmin k hk
          rw [not_not, and_mask_eq_zero] at this
          exact this

end BitArray

/-! ### The bit window built by `atom_from_index` -/

namespace BitArray

theorem foldl_shift_or_testBit (g : Nat → Nat) (hg : ∀ i, g i ≤ 1) :
    ∀ (m j : Nat),
      ((List.range m).foldl (fun r i => (r <<< 1) ||| g i) 0).testBit j =
        (decide (j < m) && decide (g (m - 1 - j) = 1)) := by
  intro m
  induction m with
  | zero => intro j; simp
  | succ m ih =>
      intro j
      rw [List.range_succ, List.foldl_append]
      simp only [List.foldl_cons, List.foldl_nil]
      rw [Nat.testBit_or, Nat.testBit_shiftLeft]
      have hgm : g m = 0 ∨ g m = 1 := by
        have := hg m
        omega
      cases j with
      | zero =>
          have hz : m + 1 - 1 - 0 = m := by omega
          rw [hz]
          rcases hgm with h0 | h1
          · rw [h0]
            simp
          · rw [h1]
            simp
      | succ k =>
          have hone : (g m).testBit (k + 1) = false := by
            rcases hgm with h0 | h1
            · rw [h0]
              simp
            · rw [h1, Nat.testBit_add_one]
              simp
          rw [hone, Nat.add_sub_cancel, ih k]
          simp only [Bool.or_false, ge_iff_le, Nat.le_add_left,
            decide_eq_true, Bool.true_and, Nat.add_sub_cancel]
          have hx : m - 1 - k = m - (k + 1) := by omega
          rw [hx]
          congr 1
          rw [decide_eq_decide]
          omega

theorem atom_from_index_eq_fold (b : BitArray) (k : Nat) :
    b.atom_from_index k = (List.range 32).foldl (fun r i => (r <<< 1) |||
      (if k + 31 - i < b.bit_count then
        (if b.getBit (k + 31 - i) then 1 else 0)
      else 0)) 0 := by
  unfold atom_from_index
  have h32 : BIT_ARRAY_BITS_IN_ATOM = 32 := rfl
  rw [h32]
  congr 1
  funext r i
  by_cases hc : k + 31 - i < b.bit_count
  · simp [hc]
  · simp [hc]

theorem atom_from_index_testBit (b : BitArray) (k j : Nat) :
    (b.atom_from_index k).testBit j =
      (decide (j < 32) && (decide (k + j < b.bit_count) && b.getBit (k + j))) := by
  have hg : ∀ i, (if k + 31 - i < b.bit_count then
      (if b.getBit (k + 31 - i) then 1 else 0) else 0) ≤ 1 := by
    intro i
    split
    · split <;> omega
    · omega
  rw [atom_from_index_eq_fold,
    foldl_shift_or_testBit _ hg 32 j]
  by_cases hj : j < 32
  · have harg : k + 31 - (32 - 1 - j) = k + j := by omega
    rw [show (32 : Nat) - 1 - j = 32 - 1 - j from rfl]
    simp only [harg]
    by_cases hbc : k + j < b.bit_count
    · cases hq : b.getBit (k + j) <;> simp [hj, hbc, hq]
    · simp [hj, hbc]
  · simp [hj]

end BitArray

/-! ### The textual renderings -/

namespace BitArray

theorem foldl_push_eq_map (g : Nat → Char) :
    ∀ (l : List Nat) (acc : List Char),
      l.foldl (fun a i => a ++ [g i]) acc = acc ++ l.map g := by
  intro l
  induction l with
  | nil => intro acc; simp
  | cons x t ih =>
      intro acc
      simp [ih]

theorem foldl_sep_eq_flatMap (c : Nat → Prop) [DecidablePred c]
    (g : Nat → Char) :
    ∀ (l : List Nat) (acc : List Char),
      l.foldl (fun a i => (if c i then a ++ [' '] else a) ++ [g i]) acc
        = acc ++ l.flatMap (fun i => (if c i then [' '] else []) ++ [g i]) := by
  intro l
  induction l with
  | nil => intro acc; simp
  | cons x t ih =>
      intro acc
      rw [List.foldl_cons, ih, List.flatMap_cons]
      by_cases hc : c x <;> simp [hc]

theorem displayChars_eq_map (b : BitArray) :
    b.displayChars =
      (List.range b.bit_count).map (fun i => if b.getBit i then '1' else '0') := by
  rw [displayChars, foldl_push_eq_map]
  simp

theorem debugChars_eq_flatMap (b : BitArray) :
    b.debugChars = (List.range b.bit_count).flatMap (fun i =>
      (if 0 < i ∧ i % 8 = 0 then [' '] else []) ++
        [if b.getBit i then '1' else '0']) := by
  rw [debugChars, foldl_sep_eq_flatMap]
  simp

theorem countP_sep_range (n : Nat) :
    (List.range n).countP (fun i => decide (0 < i ∧ i % 8 = 0))
      = (n - 1) / 8 := by
  induction n with
  | zero => simp
  | succ m ih =>
      rw [List.range_succ, List.countP_append, ih]
      by_cases hm : 0 < m ∧ m % 8 = 0
      · simp only [List.countP_cons, List.countP_nil]
        rw [if_pos (by simpa using hm)]
        omega
      · simp only [List.countP_cons, List.countP_nil]
        rw [if_neg (by simpa using hm)]
        omega

theorem debug_flatMap_length (g : Nat → Char) (n : Nat) :
    ((List.range n).flatMap (fun i =>
        (if 0 < i ∧ i % 8 = 0 then [' '] else []) ++ [g i])).length
      = n + (n - 1) / 8 := by
  induction n with
  | zero => simp
  | succ m ih =>
      rw [List.range_succ, List.flatMap_append, List.length_append, ih,
        List.flatMap_singleton]
      by_cases hm : 0 < m ∧ m % 8 = 0
      · simp only [if_pos hm, List.length_append, List.length_cons,
          List.length_nil]
        omega
      · simp only [if_neg hm, List.nil_append, List.length_cons,
          List.length_nil]
        omega

theorem debug_flatMap_count (g : Nat → Char) (hg : ∀ i, g i ≠ ' ')
    (n : Nat) :
    ((List.range n).flatMap (fun i =>
        (if 0 < i ∧ i % 8 = 0 then [' '] else []) ++ [g i])).count ' '
      = (n - 1) / 8 := by
  induction n with
  | zero => simp
  | succ m ih =>
      rw [List.range_succ, List.flatMap_append, List.count_append, ih,
        List.flatMap_singleton]
      by_cases hm : 0 < m ∧ m % 8 = 0
      · rw [List.count_append, if_pos hm]
        simp [List.count_singleton, hg m]
        omega
      · rw [List.count_append, if_neg hm]
        simp [List.count_singleton, hg m]
        omega

theorem debug_flatMap_filter (g : Nat → Char) (hg : ∀ i, g i ≠ ' ')
    (n : Nat) :
    ((List.range n).flatMap (fun i =>
        (if 0 < i ∧ i % 8 = 0 then [' '] else []) ++ [g i])).filter
          (fun ch => ch != ' ')
      = (List.range n).map g := by
  induction n with
  | zero => simp
  | succ m ih =>
      rw [List.range_succ, List.flatMap_append, List.filter_append, ih,
        List.map_append, List.flatMap_singleton]
      by_cases hm : 0 < m ∧ m % 8 = 0 <;> simp [hm, hg m]

end BitArray

/-! ### Claim theorems -/

namespace BitArray

/-- The state reached by `new(10)` followed by `set(4)`, used to witness the
reachability-hypothesis theorems. -/
theorem reachable_ex : Reachable (BitArray.mk [16] 10 1) :=
  Reachable.of_set (BitArray.mk [0] 10 0) 4 (BitArray.mk [16] 10 1)
    (Reachable.of_new 10 (BitArray.mk [0] 10 0) rfl) rfl

/-- C1: the claim fails on the code.  Construct `new(3)` and set all three
in-range bits (indices 0, 1, 2): every index below `bit_count = 3` now has
`get == true`, so the claim requires `first_unset_bit() = None`; the code
instead returns `Some 3`, an index `>= bit_count()`, because the padding
bits of the last atom keep it below `u32::MAX`. -/
theorem first_unset_bit_all_set_bug :
    ((((new 3).bind (fun x => x.set 0)).bind
        (fun x => x.set 1)).bind (fun x => x.set 2)).map
      (fun b => (b.first_unset_bit, b.bit_count, b.get 0, b.get 1, b.get 2))
      = some (some 3, 3, some true, some true, some true) := by
  decide

/-- C4: `get`, `set`, `unset` and `set_bit` panic (return `none`) exactly
when `index ≥ bit_count`, and `new` panics exactly when `bit_count = 0`;
the assert precedes any mutation, so a panicking call leaves no modified
state, and no operation returns a recoverable error value. -/
theorem bounds_panic_iff (b : BitArray) (index n : Nat) (v : Bool) :
    (b.get index = none ↔ b.bit_count ≤ index) ∧
    (b.set index = none ↔ b.bit_count ≤ index) ∧
    (b.unset index = none ↔ b.bit_count ≤ index) ∧
    (b.set_bit index v = none ↔ b.bit_count ≤ index) ∧
    (new n = none ↔ n = 0) := by
  refine ⟨?_, ?_, ?_, ?_, ?_⟩
  · by_cases hc : index < b.bit_count <;> simp [get, hc] <;> omega
  · by_cases hc : index < b.bit_count <;> simp [set, hc] <;> omega
  · by_cases hc : index < b.bit_count <;> simp [unset, hc] <;> omega
  · by_cases hc : index < b.bit_count <;> cases v <;>
      simp [set_bit, hc] <;> omega
  · by_cases hn : n = 0 <;> simp [new, hn]

/-- C6: `atom_from_index` never fails (it is total), returns a `u32` value,
and bit `b` of the returned word is `get(k + b)` when `k + b < bit_count()`
and `0` otherwise. -/
theorem atom_from_index_window (b : BitArray) (k bit : Nat) :
    b.atom_from_index k < 2 ^ 32 ∧
    (b.atom_from_index k).testBit bit
      = (decide (bit < BIT_ARRAY_BITS_IN_ATOM) &&
          (decide (k + bit < b.bit_count) && b.getBit (k + bit))) := by
  constructor
  · apply Nat.lt_pow_two_of_testBit
    intro i hi
    rw [atom_from_index_testBit]
    have hi' : ¬ (i < 32) := by omega
    simp [hi']
  · rw [atom_from_index_testBit]
    rfl

/-- C9: the `Display` rendering is exactly the `'0'`/`'1'` characters of
bits `0 .. bit_count-1` in order with no separator (`bit_count` characters),
and the `Debug` rendering is the same character sequence with one space
before bit `i` exactly when `i > 0 ∧ i % 8 = 0` (i.e. after every 8th bit
character), totalling `bit_count` bit characters plus
`(bit_count - 1) / 8` spaces. -/
theorem render_spec (b : BitArray) :
    b.displayChars = (List.range b.bit_count).map
        (fun i => if b.getBit i then '1' else '0') ∧
    b.displayChars.length = b.bit_count ∧
    (∀ ch ∈ b.displayChars, ch = '0' ∨ ch = '1') ∧
    b.debugChars = (List.range b.bit_count).flatMap (fun i =>
        (if 0 < i ∧ i % 8 = 0 then [' '] else []) ++
          [if b.getBit i then '1' else '0']) ∧
    b.debugChars.filter (fun ch => ch != ' ') = b.displayChars ∧
    b.debugChars.length = b.bit_count + (b.bit_count - 1) / 8 ∧
    b.debugChars.count ' ' = (b.bit_count - 1) / 8 := by
  have hg : ∀ i, (if b.getBit i then '1' else '0') ≠ ' ' := by
    intro i
    cases b.getBit i <;> simp
  refine ⟨displayChars_eq_map b, ?_, ?_, debugChars_eq_flatMap b, ?_, ?_, ?_⟩
  · rw [displayChars_eq_map]
    simp
  · intro ch hch
    rw [displayChars_eq_map] at hch
    obtain ⟨i, -, rfl⟩ := List.mem_map.mp hch
    cases b.getBit i <;> simp
  · rw [debugChars_eq_flatMap, displayChars_eq_map]
    exact debug_flatMap_filter _ hg _
  · rw [debugChars_eq_flatMap]
    exact debug_flatMap_length _ _
  · rw [debugChars_eq_flatMap]
    exact debug_flatMap_count _ hg _

end BitArray

namespace BitArray

/-- C2: for every reachable state, `count_set_bits()` equals the number of
indices `i` in `[0, bit_count)` with `get(i) == true`. -/
theorem count_set_bits_correct (b : BitArray) (h : Reachable b) :
    b.count_set_bits
      = (List.range b.bit_count).countP (fun i => b.get i == some true) := by
  obtain ⟨-, -, -, -, hcount⟩ := inv_preserved h
  rw [count_set_bits, hcount]
  apply List.countP_congr
  intro x hx
  have hxlt : x < b.bit_count := List.mem_range.mp hx
  rw [get, if_pos hxlt]
  cases hq : b.getBit x <;> simp [hq]

theorem count_set_bits_correct_witness :
    Reachable (BitArray.mk [16] 10 1) ∧
      (BitArray.mk [16] 10 1).count_set_bits
        = (List.range (BitArray.mk [16] 10 1).bit_count).countP
            (fun i => (BitArray.mk [16] 10 1).get i == some true) :=
  ⟨reachable_ex, count_set_bits_correct _ reachable_ex⟩

/-- C3: for every reachable state, every storage bit at a logical position
`j ≥ bit_count` is 0: construction zero-fills and no mutation writes past
`bit_count - 1`.  (Positions whose word index lies beyond the backing list
read as 0 as well.) -/
theorem padding_bits_zero (b : BitArray) (h : Reachable b) (j : Nat)
    (hj : b.bit_count ≤ j) :
    ((b.array.getD (j / BIT_ARRAY_BITS_IN_ATOM) 0).testBit
      (j % BIT_ARRAY_BITS_IN_ATOM)) = false := by
  obtain ⟨-, -, -, hpad, -⟩ := inv_preserved h
  have hz := hpad j hj
  rw [getBit, getBitL_eq_testBit] at hz
  exact hz

theorem padding_bits_zero_witness :
    Reachable (BitArray.mk [16] 10 1) ∧
      (BitArray.mk [16] 10 1).bit_count ≤ 31 ∧
      (((BitArray.mk [16] 10 1).array.getD
          (31 / BIT_ARRAY_BITS_IN_ATOM) 0).testBit
        (31 % BIT_ARRAY_BITS_IN_ATOM)) = false :=
  ⟨reachable_ex, by decide,
    padding_bits_zero _ reachable_ex 31 (by decide)⟩

/-- C5: for every reachable state, `first_set_bit()` returns the smallest
index whose bit is set (always below `bit_count`), and returns `None`
exactly when no in-range bit is set, equivalently when
`count_set_bits() = 0`. -/
theorem first_set_bit_correct (b : BitArray) (h : Reachable b) :
    (∀ i, b.first_set_bit = some i →
        i < b.bit_count ∧ b.getBit i = true ∧
          ∀ j, j < i → b.getBit j = false) ∧
    (b.first_set_bit = none ↔ ∀ i, i < b.bit_count → b.getBit i = false) ∧
    (b.first_set_bit = none ↔ b.count_set_bits = 0) := by
  obtain ⟨hpos, hlength, hatoms, hpad, hcount⟩ := inv_preserved h
  have hnone : b.first_set_bit = none
      ↔ ∀ i, i < b.bit_count → b.getBit i = false := by
    rw [first_set_bit, firstSetAux_eq_none hatoms]
    constructor
    · intro hz i hi
      exact getBitL_zero_list hz i
    · intro hzero a ha
      obtain ⟨m, hm, rfl⟩ := List.mem_iff_getElem.mp ha
      apply eq_zero_of_all_testBit
      intro k
      by_cases hk : k < 32
      · have hbit : b.getBit (m * 32 + k) = (b.array[m]).testBit k := by
          rw [getBit, getBitL_eq_testBit]
          have hdiv : (m * 32 + k) / 32 = m := by omega
          have hmod : (m * 32 + k) % 32 = k := by omega
          rw [hdiv, hmod]
          congr 1
          simp [List.getElem?_eq_getElem hm]
        by_cases hik : m * 32 + k < b.bit_count
        · rw [← hbit]
          exact hzero _ hik
        · rw [← hbit]
          exact hpad _ (by omega)
      · exact testBit_ge_32 (hatoms _ ha) (by omega)
  refine ⟨?_, hnone, ?_⟩
  · intro i hsome
    rw [first_set_bit] at hsome
    obtain ⟨j, hij, hbit, hmin⟩ := firstSetAux_eq_some hatoms hsome
    have hieq : i = j := by omega
    subst hieq
    refine ⟨?_, hbit, fun k hk => hmin k hk⟩
    by_contra hge
    have hz := hpad i (by omega)
    rw [getBit] at hz
    simp [hz] at hbit
  · rw [hnone, count_set_bits, hcount, List.countP_eq_zero]
    constructor
    · intro hz a ha
      simp [hz a (List.mem_range.mp ha)]
    · intro hz i hi
      have hni := hz i (List.mem_range.mpr hi)
      simpa using hni

theorem first_set_bit_correct_witness :
    Reachable (BitArray.mk [16] 10 1) ∧
      ((∀ i, (BitArray.mk [16] 10 1).first_set_bit = some i →
          i < (BitArray.mk [16] 10 1).bit_count ∧
            (BitArray.mk [16] 10 1).getBit i = true ∧
            ∀ j, j < i → (BitArray.mk [16] 10 1).getBit j = false) ∧
        ((BitArray.mk [16] 10 1).first_set_bit = none ↔
          ∀ i, i < (BitArray.mk [16] 10 1).bit_count →
            (BitArray.mk [16] 10 1).getBit i = false) ∧
        ((BitArray.mk [16] 10 1).first_set_bit = none ↔
          (BitArray.mk [16] 10 1).count_set_bits = 0)) :=
  ⟨reachable_ex, first_set_bit_correct _ reachable_ex⟩

end BitArray

namespace BitArray

/-- C7: a state freshly produced by `new(bit_count)` with `bit_count > 0`,
and likewise `reset()` of any reachable state, has `count_set_bits() = 0`,
`all_set() = false`, `first_set_bit() = None`, the expected capacity, and
every in-range bit reads `false`. -/
theorem new_reset_zero_state (n : Nat) (b c : BitArray)
    (hb : new n = some b) (hc : Reachable c) :
    (b.count_set_bits = 0 ∧ b.all_set = false ∧ b.first_set_bit = none ∧
      b.bit_count = n ∧ ∀ i, i < n → b.getBit i = false) ∧
    ((reset c).count_set_bits = 0 ∧ (reset c).all_set = false ∧
      (reset c).first_set_bit = none ∧ (reset c).bit_count = c.bit_count ∧
      ∀ i, i < c.bit_count → (reset c).getBit i = false) := by
  have hcpos : 0 < c.bit_count := (inv_preserved hc).1
  constructor
  · rw [new] at hb
    split at hb
    · cases hb
    · rename_i hn
      cases hb
      refine ⟨rfl, ?_, ?_, rfl, ?_⟩
      · rw [all_set]
        simp [hn]
      · rw [first_set_bit]
        show firstSetAux (List.replicate
          ((n + BIT_ARRAY_BITS_IN_ATOM - 1) / BIT_ARRAY_BITS_IN_ATOM) 0) 0
            = none
        rw [firstSetAux_eq_none (fun a ha => by
          rw [List.eq_of_mem_replicate ha]
          norm_num)]
        exact fun a ha => List.eq_of_mem_replicate ha
      · intro i hi
        exact getBitL_zero_list (fun x hx => List.eq_of_mem_replicate hx) i
  · refine ⟨rfl, ?_, ?_, rfl, ?_⟩
    · rw [all_set]
      show (c.bit_count == 0) = false
      simp
      omega
    · rw [first_set_bit]
      show firstSetAux (List.replicate c.array.length 0) 0 = none
      rw [firstSetAux_eq_none (fun a ha => by
        rw [List.eq_of_mem_replicate ha]
        norm_num)]
      exact fun a ha => List.eq_of_mem_replicate ha
    · intro i hi
      exact getBitL_zero_list (fun x hx => List.eq_of_mem_replicate hx) i

theorem new_reset_zero_state_witness :
    new 10 = some (BitArray.mk [0] 10 0) ∧
      Reachable (BitArray.mk [16] 10 1) ∧
      (((BitArray.mk [0] 10 0).count_set_bits = 0 ∧
          (BitArray.mk [0] 10 0).all_set = false ∧
          (BitArray.mk [0] 10 0).first_set_bit = none ∧
          (BitArray.mk [0] 10 0).bit_count = 10 ∧
          ∀ i, i < 10 → (BitArray.mk [0] 10 0).getBit i = false) ∧
        ((reset (BitArray.mk [16] 10 1)).count_set_bits = 0 ∧
          (reset (BitArray.mk [16] 10 1)).all_set = false ∧
          (reset (BitArray.mk [16] 10 1)).first_set_bit = none ∧
          (reset (BitArray.mk [16] 10 1)).bit_count
            = (BitArray.mk [16] 10 1).bit_count ∧
          ∀ i, i < (BitArray.mk [16] 10 1).bit_count →
            (reset (BitArray.mk [16] 10 1)).getBit i = false)) :=
  ⟨rfl, reachable_ex, new_reset_zero_state 10 _ _ rfl reachable_ex⟩

/-- C8: for any reachable state and in-range index `i`, `set(i)` makes
`get(i)` read `true` and a second `set(i)` returns the very same state (so
in particular the same `count_set_bits()`); `unset(i)` makes `get(i)` read
`false`. -/
theorem set_get_idempotent (b : BitArray) (h : Reachable b) (i : Nat)
    (hi : i < b.bit_count) :
    (∀ b', b.set i = some b' → b'.getBit i = true ∧ b'.set i = some b') ∧
    (∀ b', b.unset i = some b' → b'.getBit i = false) := by
  have hInv := inv_preserved h
  have hlen : i / 32 < b.array.length := inv_length_div32 hInv hi
  constructor
  · intro b' hset
    have hpt := getBit_set_some hlen hset
    constructor
    · rw [hpt i]
      simp
    · have hbc : b'.bit_count = b.bit_count := set_bit_count hset
      have hi' : i < b'.bit_count := by omega
      have harr : b'.array = b.array.set (i / 32)
          ((b.array.getD (i / 32) 0) ||| (1 <<< (i % 32))) := by
        rw [set_eq_some hi] at hset
        cases hset
        rfl
      have hatom : b'.array.getD (i / 32) 0
          = (b.array.getD (i / 32) 0) ||| (1 <<< (i % 32)) := by
        rw [harr]
        simp [List.getElem?_set_self hlen]
      have hmask : ¬ ((b'.array.getD (i / 32) 0) &&& (1 <<< (i % 32)) = 0) := by
        rw [hatom]
        intro hzero
        rw [and_mask_eq_zero, Nat.one_shiftLeft, Nat.testBit_or,
          Nat.testBit_two_pow_self] at hzero
        simp at hzero
      have harr2 : b'.array.set (i / 32)
          ((b'.array.getD (i / 32) 0) ||| (1 <<< (i % 32))) = b'.array := by
        rw [hatom, harr, List.set_set]
        rw [Nat.or_assoc, Nat.or_self]
      rw [set_eq_some hi', harr2, if_neg hmask]
  · intro b' hunset
    have hpt := getBit_unset_some hlen hunset
    rw [hpt i]
    simp

theorem set_get_idempotent_witness :
    Reachable (BitArray.mk [16] 10 1) ∧
      3 < (BitArray.mk [16] 10 1).bit_count ∧
      ((∀ b', (BitArray.mk [16] 10 1).set 3 = some b' →
          b'.getBit 3 = true ∧ b'.set 3 = some b') ∧
        (∀ b', (BitArray.mk [16] 10 1).unset 3 = some b' →
          b'.getBit 3 = false)) :=
  ⟨reachable_ex, by decide,
    set_get_idempotent _ reachable_ex 3 (by decide)⟩

/-- C10: for any reachable state, `set(i)`, `unset(i)` and `set_bit(i, v)`
leave every other bit `j ≠ i` and the capacity unchanged. -/
theorem mutators_frame (b : BitArray) (h : Reachable b) (i j : Nat)
    (v : Bool) (hne : j ≠ i) :
    (∀ b', b.set i = some b' →
        b'.getBit j = b.getBit j ∧ b'.bit_count = b.bit_count) ∧
    (∀ b', b.unset i = some b' →
        b'.getBit j = b.getBit j ∧ b'.bit_count = b.bit_count) ∧
    (∀ b', b.set_bit i v = some b' →
        b'.getBit j = b.getBit j ∧ b'.bit_count = b.bit_count) := by
  have hInv := inv_preserved h
  have hset : ∀ b', b.set i = some b' →
      b'.getBit j = b.getBit j ∧ b'.bit_count = b.bit_count := by
    intro b' hs
    have hlen := inv_length_div32 hInv (set_bound hs)
    refine ⟨?_, set_bit_count hs⟩
    rw [getBit_set_some hlen hs j]
    simp [hne]
  have hunset : ∀ b', b.unset i = some b' →
      b'.getBit j = b.getBit j ∧ b'.bit_count = b.bit_count := by
    intro b' hs
    have hlen := inv_length_div32 hInv (unset_bound hs)
    refine ⟨?_, unset_bit_count hs⟩
    rw [getBit_unset_some hlen hs j]
    simp [hne]
  refine ⟨hset, hunset, ?_⟩
  intro b' hs
  rw [set_bit_eq] at hs
  cases v
  · exact hunset b' (by simpa using hs)
  · exact hset b' (by simpa using hs)

theorem mutators_frame_witness :
    Reachable (BitArray.mk [16] 10 1) ∧ (0 : Nat) ≠ 3 ∧
      ((∀ b', (BitArray.mk [16] 10 1).set 3 = some b' →
          b'.getBit 0 = (BitArray.mk [16] 10 1).getBit 0 ∧
            b'.bit_count = (BitArray.mk [16] 10 1).bit_count) ∧
        (∀ b', (BitArray.mk [16] 10 1).unset 3 = some b' →
          b'.getBit 0 = (BitArray.mk [16] 10 1).getBit 0 ∧
            b'.bit_count = (BitArray.mk [16] 10 1).bit_count) ∧
        (∀ b', (BitArray.mk [16] 10 1).set_bit 3 true = some b' →
          b'.getBit 0 = (BitArray.mk [16] 10 1).getBit 0 ∧
            b'.bit_count = (BitArray.mk [16] 10 1).bit_count)) :=
  ⟨reachable_ex, by decide,
    mutators_frame _ reachable_ex 3 0 true (by decide)⟩

end BitArray
